import Mathlib

/-! Verification of the marker-block updater of `init_ddk.py`
(`KleafProjectSetter._update_file`) and of the download helpers
(`KleafProjectSetter._get_url`, `KleafProjectSetter._download`).

File contents are modelled as lists of characters.  The Python loop
`for line in input_file` is modelled by `splitLines`, which cuts the
character stream after every newline, keeping the newline — exactly the
behaviour of Python text-file iteration: every line except possibly the
last ends with a newline, and the final segment without a trailing
newline is a line of its own. -/
set_option autoImplicit false

/-- The begin sentinel `_FILE_MARKER_BEGIN` of `init_ddk.py`, with its
trailing newline. -/
def FILE_MARKER_BEGIN : List Char :=
  "### GENERATED SECTION - DO NOT MODIFY - BEGIN ###\n".data

/-- The end sentinel `_FILE_MARKER_END` of `init_ddk.py`, with its
trailing newline. -/
def FILE_MARKER_END : List Char :=
  "### GENERATED SECTION - DO NOT MODIFY - END ###\n".data

/-- Boolean test that `n` is an initial segment of `h`. -/
def leadsWith : List Char → List Char → Bool
  | [], _ => true
  | _ :: _, [] => false
  | a :: as, b :: bs => a == b && leadsWith as bs

/-- Boolean substring containment: `hasSub n h` models the Python
expression `n in h` on strings. -/
def hasSub (n : List Char) : List Char → Bool
  | [] => leadsWith n []
  | b :: bs => leadsWith n (b :: bs) || hasSub n bs

/-- Python text-file line iteration: `acc` is the (reversed) pending
partial line. -/
def splitLinesAux (acc : List Char) : List Char → List (List Char)
  | [] => if acc = [] then [] else [acc.reverse]
  | c :: cs =>
      if c = '\n' then (acc.reverse ++ ['\n']) :: splitLinesAux [] cs
      else splitLinesAux (c :: acc) cs

/-- The lines of a character stream, Python-style (newlines kept). -/
def splitLines (s : List Char) : List (List Char) := splitLinesAux [] s

/-- A newline-terminated line: one newline, at the very end. -/
def TermLine (l : List Char) : Prop := ∃ m, l = m ++ ['\n'] ∧ '\n' ∉ m

/-! The `_update_file` loop (init_ddk.py lines 87–120).  The loop state
is the three booleans of the Python code plus the text written so far to
the temporary output file. -/
/-- Loop state of `_update_file`. -/
structure UpdSt where
  add_content : Bool
  skip_line : Bool
  update_written : Bool
  out : List Char

/-- A line the code treats as containing the begin marker
(`_FILE_MARKER_BEGIN in line`). -/
def isBLine (l : List Char) : Bool := hasSub FILE_MARKER_BEGIN l

/-- A line the code treats as containing the end marker
(`_FILE_MARKER_END in line`). -/
def isELine (l : List Char) : Bool := hasSub FILE_MARKER_END l

/-- One iteration of the `for line in input_file` body of
`_update_file` (source lines 103–115), in source order: the
`add_content` emission, the end-marker check, the begin-marker check,
the conditional copy of the line. -/
def updStep (update : List Char) (st : UpdSt) (line : List Char) : UpdSt :=
  let st1 :=
    if st.add_content then
      { st with out := st.out ++ FILE_MARKER_BEGIN ++ (update ++ ['\n']),
                update_written := true, add_content := false }
    else st
  let st2 := if isELine line then { st1 with skip_line := false } else st1
  let st3 :=
    if isBLine line then { st2 with skip_line := true, add_content := true }
    else st2
  if st3.skip_line then st3 else { st3 with out := st3.out ++ line }

/-- The content transformation of `_update_file`: from the current file
content (empty when the path does not exist, matching the `a+` open
mode) and the replacement string to the text written to the temporary
file that is finally moved onto the path (source lines 103–120). -/
def update_file (content update : List Char) : List Char :=
  let st := (splitLines content).foldl (updStep update) ⟨false, false, false, []⟩
  if st.update_written then st.out
  else st.out ++ FILE_MARKER_BEGIN ++ (update ++ ['\n']) ++ FILE_MARKER_END

/-! Line-level restatement of the loop.  `bodyRun Rl add skip ls` is the
list of lines the loop appends to the temporary file when started in
state `(add_content, skip_line) = (add, skip)`; `Rl` is the replacement
block `update + "\n"` cut into lines, so the `add_content` branch emits
the begin marker followed by `Rl`.  `wrtRun add ls` is the final value
of `update_written`. -/
/-- The `skip_line` value after processing one line. -/
def nextSkip (skip : Bool) (l : List Char) : Bool :=
  if isBLine l then true else if isELine l then false else skip

/-- Lines emitted by the rest of the loop from state `(add, skip)`. -/
def bodyRun (Rl : List (List Char)) : Bool → Bool → List (List Char) → List (List Char)
  | _, _, [] => []
  | add, skip, l :: ls =>
      (if add then FILE_MARKER_BEGIN :: Rl else []) ++
      (if isBLine l then bodyRun Rl true true ls
       else if isELine l then l :: bodyRun Rl false false ls
       else if skip then bodyRun Rl false true ls
       else l :: bodyRun Rl false false ls)

/-- Final value of `update_written` from state `add`. -/
def wrtRun : Bool → List (List Char) → Bool
  | _, [] => false
  | add, l :: ls => add || wrtRun (isBLine l) ls

/-- Line-level description of `update_file`: the loop output, plus the
appended fresh section when `update_written` stayed false. -/
def lineUpd (Rl ls : List (List Char)) : List (List Char) :=
  if wrtRun false ls then bodyRun Rl false false ls
  else bodyRun Rl false false ls ++ FILE_MARKER_BEGIN :: (Rl ++ [FILE_MARKER_END])

/-! Filesystem-effect trace of `_update_file` (C7).  Each effectful
statement of the source is recorded in program order: the single read
of the target path, the `output_file.write` calls (all to the temporary
file), and the final `shutil.move` onto the path. -/
/-- A filesystem operation performed by `_update_file`. -/
inductive FsOp where
  | readFile : List Char → FsOp
  | writeTmp : List Char → FsOp
  | moveTmpTo : List Char → FsOp

/-- Loop state of `_update_file` with the effect trace accumulated. -/
structure UpdStT where
  add_content : Bool
  skip_line : Bool
  update_written : Bool
  ops : List FsOp

/-- One loop iteration of `_update_file`, recording each write to the
temporary file as an effect (two writes in the `add_content` branch,
one in the copy branch). -/
def updStepT (update : List Char) (st : UpdStT) (line : List Char) : UpdStT :=
  let st1 :=
    if st.add_content then
      { st with ops := st.ops ++ [FsOp.writeTmp FILE_MARKER_BEGIN,
                                  FsOp.writeTmp (update ++ ['\n'])],
                update_written := true, add_content := false }
    else st
  let st2 := if isELine line then { st1 with skip_line := false } else st1
  let st3 :=
    if isBLine line then { st2 with skip_line := true, add_content := true }
    else st2
  if st3.skip_line then st3 else { st3 with ops := st3.ops ++ [FsOp.writeTmp line] }

/-- The effect trace of `_update_file path update` on a file whose
current content is `content`. -/
def update_file_ops (path content update : List Char) : List FsOp :=
  let st := (splitLines content).foldl (updStepT update)
    ⟨false, false, false, [FsOp.readFile path]⟩
  (if st.update_written then st.ops
   else st.ops ++ [FsOp.writeTmp FILE_MARKER_BEGIN,
                   FsOp.writeTmp (update ++ ['\n']),
                   FsOp.writeTmp FILE_MARKER_END]) ++ [FsOp.moveTmpTo path]

/-! The download helpers `_get_url` and `_download` (C8, C9).  The
`--url_fmt` format string is modelled as a token list: literal text and
the three named fields `_get_url` passes to `str.format`. -/
/-- A token of the `url_fmt` format string. -/
inductive FmtTok where
  | lit : List Char → FmtTok
  | fBuildId : FmtTok
  | fBuildTarget : FmtTok
  | fFilename : FmtTok
deriving DecidableEq

/-- Python `str()` of an optional string field: `None` renders as the
four characters `None` under `str.format`. -/
def pyStrOpt : Option (List Char) → List Char
  | none => "None".data
  | some s => s

/-- Python truthiness of an optional string (`if not self.build_id`):
`None` and the empty string are falsy. -/
def pyTruthy : Option (List Char) → Bool
  | none => false
  | some s => !s.isEmpty

/-- An uppercase hexadecimal digit, as produced by
`urllib.parse.quote`. -/
def hexDigit (n : Nat) : Char :=
  if n < 10 then Char.ofNat (48 + n) else Char.ofNat (55 + n)

/-- The UTF-8 encoding of one character, as byte values. -/
def utf8Bytes (c : Char) : List Nat :=
  let n := c.toNat
  if n < 128 then [n]
  else if n < 2048 then [192 + n / 64, 128 + n % 64]
  else if n < 65536 then [224 + n / 4096, 128 + n / 64 % 64, 128 + n % 64]
  else [240 + n / 262144, 128 + n / 4096 % 64, 128 + n / 64 % 64, 128 + n % 64]

/-- Characters `urllib.parse.quote` keeps verbatim when `safe=""`:
ASCII letters, digits, and `_ . - ~`. -/
def quoteSafe (c : Char) : Bool :=
  c.isAlpha || c.isDigit || c = '_' || c = '.' || c = '-' || c = '~'

/-- `urllib.parse.quote(s, safe="")` — percent-encodes every UTF-8 byte
of every non-unreserved character, so `/` becomes `%2F`. -/
def pyQuote (s : List Char) : List Char :=
  (s.map fun c =>
    if quoteSafe c then [c]
    else ((utf8Bytes c).map fun b => ['%', hexDigit (b / 16), hexDigit (b % 16)]).flatten).flatten

/-- `url_fmt.format(build_id=bid, build_target=btarget, filename=fname)`. -/
def renderFmt (t : List FmtTok) (bid btarget fname : List Char) : List Char :=
  (t.map fun tok =>
    match tok with
    | FmtTok.lit s => s
    | FmtTok.fBuildId => bid
    | FmtTok.fBuildTarget => btarget
    | FmtTok.fFilename => fname).flatten

/-- The placeholder `_get_url` substitutes for `build_id` to detect
whether the URL depends on it. -/
def FAKE_BUILD_ID : List Char := "__FAKE_BUILD_NUMBER_PLACEHOLDER__".data

/-- `KleafProjectSetter._get_url` (source lines 183–197): format the
URL with the real `build_id` and with the fake placeholder; when
`build_id` is falsy and the two renderings differ, return `None`,
otherwise the URL. -/
def get_url (url_fmt : List FmtTok) (build_id build_target : Option (List Char))
    (remote_filename : List Char) : Option (List Char) :=
  let fq := pyQuote remote_filename
  let url := renderFmt url_fmt (pyStrOpt build_id) (pyStrOpt build_target) fq
  let url_with_fake_id := renderFmt url_fmt FAKE_BUILD_ID (pyStrOpt build_target) fq
  if pyTruthy build_id = false ∧ url ≠ url_with_fake_id then none else some url

/-- Observable outcome of `KleafProjectSetter._download` (source lines
199–223): an error logged followed by an early return (no subprocess),
or the `init_download.py` subprocess invocation with the resolved URL
and the output file name. -/
inductive DlResult where
  | errNoUrlFmt : DlResult
  | errNoBuildId : DlResult
  | invoke : List Char → List Char → DlResult
deriving DecidableEq

/-- `KleafProjectSetter._download`: missing `url_fmt` and unresolvable
URLs (`if not url`, catching both `None` and the empty string) are
logged and skipped; otherwise the download subprocess is invoked. -/
def download (url_fmt : Option (List FmtTok))
    (build_id build_target : Option (List Char))
    (remote_filename out_file_name : List Char) : DlResult :=
  match url_fmt with
  | none => DlResult.errNoUrlFmt
  | some t =>
    match get_url t build_id build_target remote_filename with
    | none => DlResult.errNoBuildId
    | some url =>
      if url = [] then DlResult.errNoBuildId
      else DlResult.invoke url out_file_name

theorem leadsWith_iff : ∀ n h : List Char, leadsWith n h = true ↔ ∃ t, h = n ++ t := by
  intro n
  induction n with
  | nil => intro h; simp [leadsWith]
  | cons a as ih =>
    intro h
    cases h with
    | nil => simp [leadsWith]
    | cons b bs =>
      simp only [leadsWith, Bool.and_eq_true, beq_iff_eq]
      constructor
      · rintro ⟨rfl, hl⟩
        obtain ⟨t, rfl⟩ := (ih bs).mp hl
        exact ⟨t, rfl⟩
      · rintro ⟨t, ht⟩
        rw [List.cons_append] at ht
        injection ht with hb hbs
        subst hbs
        exact ⟨hb.symm, (ih (as ++ t)).mpr ⟨t, rfl⟩⟩

theorem hasSub_iff : ∀ n h : List Char, hasSub n h = true ↔ ∃ p t, h = p ++ (n ++ t) := by
  intro n h
  induction h with
  | nil =>
    simp only [hasSub, leadsWith_iff]
    constructor
    · rintro ⟨t, ht⟩; exact ⟨[], t, ht⟩
    · rintro ⟨p, t, ht⟩
      rcases List.append_eq_nil.mp ht.symm with ⟨rfl, h2⟩
      exact ⟨t, ht⟩
  | cons b bs ih =>
    simp only [hasSub, Bool.or_eq_true, leadsWith_iff, ih]
    constructor
    · rintro (⟨t, ht⟩ | ⟨p, t, ht⟩)
      · exact ⟨[], t, by simp [ht]⟩
      · exact ⟨b :: p, t, by simp [ht]⟩
    · rintro ⟨p, t, ht⟩
      cases p with
      | nil => exact Or.inl ⟨t, by simpa using ht⟩
      | cons x xs =>
        rw [List.cons_append] at ht
        cases ht
        exact Or.inr ⟨xs, t, rfl⟩

theorem hasSub_of_part {n l : List Char} (h : hasSub n l = true) (p t : List Char) :
    hasSub n (p ++ (l ++ t)) = true := by
  obtain ⟨a, b, rfl⟩ := (hasSub_iff n l).mp h
  exact (hasSub_iff n _).mpr ⟨p ++ a, b ++ t, by simp⟩

theorem mem_of_hasSub {n h : List Char} (hs : hasSub n h = true) {c : Char}
    (hc : c ∈ n) : c ∈ h := by
  obtain ⟨p, t, rfl⟩ := (hasSub_iff n h).mp hs
  simp [hc]

theorem join_splitLinesAux : ∀ (s acc : List Char),
    (splitLinesAux acc s).flatten = acc.reverse ++ s := by
  intro s
  induction s with
  | nil =>
    intro acc
    by_cases h : acc = [] <;> simp [splitLinesAux, h]
  | cons c cs ih =>
    intro acc
    by_cases h : c = '\n'
    · subst h
      simp [splitLinesAux, ih]
    · simp [splitLinesAux, h, ih (c :: acc)]

/-- Joining the Python lines of a stream gives back the stream. -/
theorem join_splitLines (s : List Char) : (splitLines s).flatten = s := by
  simpa using join_splitLinesAux s []

theorem splitLinesAux_term {m : List Char} (hm : '\n' ∉ m) :
    ∀ (acc rest : List Char),
      splitLinesAux acc (m ++ '\n' :: rest) =
        (acc.reverse ++ (m ++ ['\n'])) :: splitLinesAux [] rest := by
  induction m with
  | nil => intro acc rest; simp [splitLinesAux]
  | cons c cs ih =>
    intro acc rest
    have hc : c ≠ '\n' := fun h => hm (h ▸ List.mem_cons_self c cs)
    have hcs : '\n' ∉ cs := fun h => hm (List.mem_cons_of_mem c h)
    have h1 : (c :: cs) ++ '\n' :: rest = c :: (cs ++ '\n' :: rest) := rfl
    have h2 : splitLinesAux acc (c :: (cs ++ '\n' :: rest)) =
        splitLinesAux (c :: acc) (cs ++ '\n' :: rest) := by
      simp [splitLinesAux, hc]
    rw [h1, h2, ih hcs (c :: acc) rest]
    simp

/-- Splitting a join of well-formed (newline-terminated) lines gives
back exactly those lines. -/
theorem splitLines_join : ∀ ls : List (List Char),
    (∀ l ∈ ls, TermLine l) → splitLines ls.flatten = ls := by
  intro ls
  induction ls with
  | nil => intro _; simp [splitLines, splitLinesAux]
  | cons l rest ih =>
    intro h
    obtain ⟨m, rfl, hm⟩ := h l (List.mem_cons_self l rest)
    have heq : (m ++ ['\n']) ++ rest.flatten = m ++ '\n' :: rest.flatten := by simp
    rw [List.flatten_cons, heq, splitLines, splitLinesAux_term hm [] rest.flatten]
    simp only [List.reverse_nil, List.nil_append, List.cons.injEq, true_and]
    exact ih fun l hl => h l (List.mem_cons_of_mem _ hl)

/-- Every line of a newline-terminated stream is newline-terminated. -/
theorem termLine_splitLines (s : List Char) :
    ∀ l ∈ splitLines (s ++ ['\n']), TermLine l := by
  suffices h : ∀ (s acc : List Char), '\n' ∉ acc →
      ∀ l ∈ splitLinesAux acc (s ++ ['\n']), TermLine l by
    exact h s [] (by simp)
  intro s
  induction s with
  | nil =>
    intro acc hacc l hl
    simp [splitLinesAux] at hl
    exact ⟨acc.reverse, hl, by simpa using hacc⟩
  | cons c cs ih =>
    intro acc hacc l hl
    by_cases hc : c = '\n'
    · subst hc
      simp [splitLinesAux] at hl
      rcases hl with rfl | hl
      · exact ⟨acc.reverse, rfl, by simpa using hacc⟩
      · exact ih [] (by simp) l hl
    · simp only [List.cons_append, splitLinesAux, if_neg hc] at hl
      refine ih (c :: acc) ?_ l hl
      intro hmem
      rcases List.mem_cons.mp hmem with h | h
      · exact hc h.symm
      · exact hacc h

theorem splitLines_ne_nil {s : List Char} (hs : s ≠ []) : splitLines s ≠ [] := by
  intro h
  apply hs
  have := join_splitLines s
  rw [h] at this
  simpa using this.symm

theorem mem_join_part {l : List Char} : ∀ {ls : List (List Char)}, l ∈ ls →
    ∃ p t, ls.flatten = p ++ (l ++ t) := by
  intro ls
  induction ls with
  | nil => intro h; simp at h
  | cons x xs ih =>
    intro hl
    rcases List.mem_cons.mp hl with rfl | h
    · exact ⟨[], xs.flatten, by simp⟩
    · obtain ⟨p, t, hpt⟩ := ih h
      exact ⟨x ++ p, t, by simp [hpt]⟩

/-- A member line of `splitLines s` occurs contiguously inside `s`. -/
theorem mem_splitLines_part {s l : List Char} (hl : l ∈ splitLines s) :
    ∃ p t, s = p ++ (l ++ t) := by
  obtain ⟨p, t, hpt⟩ := mem_join_part hl
  rw [join_splitLines] at hpt
  exact ⟨p, t, hpt⟩

/-- A marker absent from a stream is absent from each of its lines. -/
theorem hasSub_line_of_stream {n s l : List Char} (hs : hasSub n s = false)
    (hl : l ∈ splitLines s) : hasSub n l = false := by
  cases hq : hasSub n l with
  | false => rfl
  | true =>
    obtain ⟨p, t, rfl⟩ := mem_splitLines_part hl
    rw [hasSub_of_part hq p t] at hs
    exact Bool.noConfusion hs

theorem updStep_eq (u : List Char) (st : UpdSt) (l : List Char) :
    updStep u st l =
      ⟨isBLine l, nextSkip st.skip_line l,
       st.update_written || st.add_content,
       st.out ++ (if st.add_content then FILE_MARKER_BEGIN ++ (u ++ ['\n']) else [])
         ++ (if nextSkip st.skip_line l then [] else l)⟩ := by
  obtain ⟨a, s, w, o⟩ := st
  cases a <;> cases s <;> cases hB : isBLine l <;> cases hE : isELine l <;>
    simp [updStep, nextSkip, hB, hE]

theorem foldl_updStep_eq (u : List Char) :
    ∀ (ls : List (List Char)) (st : UpdSt),
      ((ls.foldl (updStep u) st).out
          = st.out ++ (bodyRun (splitLines (u ++ ['\n'])) st.add_content st.skip_line ls).flatten)
        ∧ ((ls.foldl (updStep u) st).update_written
          = (st.update_written || wrtRun st.add_content ls)) := by
  intro ls
  induction ls with
  | nil => intro st; simp [bodyRun, wrtRun]
  | cons l ls ih =>
    intro st
    rw [List.foldl_cons, updStep_eq]
    obtain ⟨h1, h2⟩ := ih ⟨isBLine l, nextSkip st.skip_line l,
      st.update_written || st.add_content,
      st.out ++ (if st.add_content then FILE_MARKER_BEGIN ++ (u ++ ['\n']) else [])
        ++ (if nextSkip st.skip_line l then [] else l)⟩
    constructor
    · rw [h1]
      cases hB : isBLine l <;> cases hE : isELine l <;> cases hs : st.skip_line <;>
        cases ha : st.add_content <;>
          simp [bodyRun, wrtRun, nextSkip, hB, hE, join_splitLines]
    · rw [h2]
      simp [wrtRun, Bool.or_assoc]

theorem update_file_eq_lineUpd (c u : List Char) :
    update_file c u = (lineUpd (splitLines (u ++ ['\n'])) (splitLines c)).flatten := by
  obtain ⟨h1, h2⟩ := foldl_updStep_eq u (splitLines c) ⟨false, false, false, []⟩
  rw [update_file, lineUpd]
  simp only at h1 h2
  rw [h1, h2]
  cases hw : wrtRun false (splitLines c) <;>
    simp [join_splitLines]

/-! Concrete facts about the two marker constants. -/
theorem isBLine_MB : isBLine FILE_MARKER_BEGIN = true := by decide

theorem isELine_MB : isELine FILE_MARKER_BEGIN = false := by decide

theorem isBLine_ME : isBLine FILE_MARKER_END = false := by decide

theorem isELine_ME : isELine FILE_MARKER_END = true := by decide

/-! Behaviour of `bodyRun` on classified stretches of lines. -/
/-- In copy state, begin-marker-free lines are copied verbatim. -/
theorem bodyRun_copy (Rl : List (List Char)) :
    ∀ (xs zs : List (List Char)), (∀ x ∈ xs, isBLine x = false) →
      bodyRun Rl false false (xs ++ zs) = xs ++ bodyRun Rl false false zs := by
  intro xs
  induction xs with
  | nil => intro zs _; rfl
  | cons x xs ih =>
    intro zs h
    have hx : isBLine x = false := h x (List.mem_cons_self x xs)
    have hxs := fun y hy => h y (List.mem_cons_of_mem x hy)
    cases hE : isELine x <;>
      simp [bodyRun, hx, hE, ih zs hxs]

/-- In skip state, marker-free lines are dropped. -/
theorem bodyRun_skip_drop (Rl : List (List Char)) :
    ∀ (xs zs : List (List Char)),
      (∀ x ∈ xs, isBLine x = false ∧ isELine x = false) →
      bodyRun Rl false true (xs ++ zs) = bodyRun Rl false true zs := by
  intro xs
  induction xs with
  | nil => intro zs _; rfl
  | cons x xs ih =>
    intro zs h
    obtain ⟨hxB, hxE⟩ := h x (List.mem_cons_self x xs)
    have hxs := fun y hy => h y (List.mem_cons_of_mem x hy)
    simp [bodyRun, hxB, hxE, ih zs hxs]

/-- After a begin-marker line, with a marker-free interior `mid` and an
end-marker line `e`, the loop emits the fresh section header and the
replacement block, drops `mid`, copies `e`, and resumes copying. -/
theorem bodyRun_section (Rl : List (List Char)) (mid post : List (List Char))
    (e : List Char) (hmid : ∀ x ∈ mid, isBLine x = false ∧ isELine x = false)
    (heB : isBLine e = false) (heE : isELine e = true) :
    bodyRun Rl true true (mid ++ e :: post)
      = FILE_MARKER_BEGIN :: Rl ++ e :: bodyRun Rl false false post := by
  cases mid with
  | nil => simp [bodyRun, heB, heE]
  | cons m mid' =>
    obtain ⟨hmB, hmE⟩ := hmid m (List.mem_cons_self m mid')
    have hmid' := fun y hy => hmid y (List.mem_cons_of_mem m hy)
    have h1 : bodyRun Rl true true ((m :: mid') ++ e :: post)
        = (FILE_MARKER_BEGIN :: Rl) ++ bodyRun Rl false true (mid' ++ e :: post) := by
      simp [bodyRun, hmB, hmE]
    rw [h1, bodyRun_skip_drop Rl mid' (e :: post) hmid']
    simp [bodyRun, heB, heE]

/-- `update_written` stays false across begin-marker-free lines. -/
theorem wrtRun_noB : ∀ (xs ys : List (List Char)),
    (∀ x ∈ xs, isBLine x = false) → wrtRun false (xs ++ ys) = wrtRun false ys := by
  intro xs
  induction xs with
  | nil => intro ys _; rfl
  | cons x xs ih =>
    intro ys h
    have hx : isBLine x = false := h x (List.mem_cons_self x xs)
    simp [wrtRun, hx, ih ys fun y hy => h y (List.mem_cons_of_mem x hy)]

/-- A begin-marker line with at least one line after it fires the
`add_content` emission. -/
theorem wrtRun_hit {b : List Char} (hb : isBLine b = true) (z : List Char)
    (zs : List (List Char)) : wrtRun false (b :: z :: zs) = true := by
  simp [wrtRun, hb]

/-- Master structure lemma at line level: a well-formed single-section
line stream maps to `pre`, fresh header, replacement lines, the original
end line, `post`. -/
theorem lineUpd_struct (Rl pre mid post : List (List Char)) (b e : List Char)
    (hpre : ∀ x ∈ pre, isBLine x = false)
    (hmid : ∀ x ∈ mid, isBLine x = false ∧ isELine x = false)
    (hpost : ∀ x ∈ post, isBLine x = false)
    (hb : isBLine b = true) (heB : isBLine e = false) (heE : isELine e = true) :
    lineUpd Rl (pre ++ b :: (mid ++ e :: post))
      = pre ++ FILE_MARKER_BEGIN :: Rl ++ e :: post := by
  have hwrt : wrtRun false (pre ++ b :: (mid ++ e :: post)) = true := by
    rw [wrtRun_noB pre _ hpre]
    cases mid with
    | nil => exact wrtRun_hit hb e post
    | cons m mid' => exact wrtRun_hit hb m (mid' ++ e :: post)
  have hpost' : bodyRun Rl false false post = post := by
    have := bodyRun_copy Rl post [] hpost
    simpa [bodyRun] using this
  rw [lineUpd, if_pos hwrt, bodyRun_copy Rl pre _ hpre]
  have hbstep : bodyRun Rl false false (b :: (mid ++ e :: post))
      = bodyRun Rl true true (mid ++ e :: post) := by
    simp [bodyRun, hb]
  rw [hbstep, bodyRun_section Rl mid post e hmid heB heE, hpost']
  simp

/-- Content-level structure theorem for `_update_file` on a file
containing a well-formed marker section. -/
theorem update_file_struct (c u : List Char) (pre mid post : List (List Char))
    (b e : List Char)
    (hsplit : splitLines c = pre ++ b :: (mid ++ e :: post))
    (hpre : ∀ x ∈ pre, isBLine x = false)
    (hmid : ∀ x ∈ mid, isBLine x = false ∧ isELine x = false)
    (hpost : ∀ x ∈ post, isBLine x = false)
    (hb : isBLine b = true) (heB : isBLine e = false) (heE : isELine e = true) :
    update_file c u
      = pre.flatten ++ FILE_MARKER_BEGIN ++ (u ++ ['\n']) ++ e ++ post.flatten := by
  rw [update_file_eq_lineUpd, hsplit,
    lineUpd_struct _ pre mid post b e hpre hmid hpost hb heB heE]
  simp [join_splitLines]

/-- Content-level append theorem: when no line of the input contains the
begin marker, the whole input is copied and a fresh section is appended. -/
theorem update_file_no_marker (c u : List Char)
    (h : ∀ l ∈ splitLines c, isBLine l = false) :
    update_file c u
      = c ++ FILE_MARKER_BEGIN ++ (u ++ ['\n']) ++ FILE_MARKER_END := by
  have hwrt : wrtRun false (splitLines c) = false := by
    have := wrtRun_noB (splitLines c) [] h
    simpa using this
  have hcopy : bodyRun (splitLines (u ++ ['\n'])) false false (splitLines c)
      = splitLines c := by
    have := bodyRun_copy (splitLines (u ++ ['\n'])) (splitLines c) [] h
    simpa [bodyRun] using this
  rw [update_file_eq_lineUpd, lineUpd, if_neg (by simp [hwrt]), hcopy]
  simp [join_splitLines]

/-! Re-running the loop over its own output.  Throughout, `Rl` (the
replacement block cut into lines) is nonempty and marker-free. -/
/-- Reading back an emitted replacement block from the after-begin
state re-emits the header and block, then continues in skip state. -/
theorem bodyRun_reemit (Rl : List (List Char)) (hne : Rl ≠ [])
    (hcl : ∀ r ∈ Rl, isBLine r = false ∧ isELine r = false)
    (X : List (List Char)) :
    bodyRun Rl true true (Rl ++ X)
      = FILE_MARKER_BEGIN :: Rl ++ bodyRun Rl false true X := by
  rcases Rl with _ | ⟨r, rs⟩
  · exact absurd rfl hne
  · obtain ⟨hrB, hrE⟩ := hcl r (List.mem_cons_self r rs)
    have hrs := fun y hy => hcl y (List.mem_cons_of_mem r hy)
    have h1 : bodyRun (r :: rs) true true ((r :: rs) ++ X)
        = (FILE_MARKER_BEGIN :: r :: rs) ++ bodyRun (r :: rs) false true (rs ++ X) := by
      simp [bodyRun, hrB, hrE]
    rw [h1, bodyRun_skip_drop (r :: rs) rs X hrs]

/-- Reading back an emitted section header leaves it unchanged, from
either re-reading state, provided the text after it is skip-stable. -/
theorem rerun_chunk (Rl : List (List Char)) (hne : Rl ≠ [])
    (hcl : ∀ r ∈ Rl, isBLine r = false ∧ isELine r = false)
    (sk : Bool) (X : List (List Char))
    (hX : bodyRun Rl false true X = X) :
    bodyRun Rl false sk (FILE_MARKER_BEGIN :: (Rl ++ X))
      = FILE_MARKER_BEGIN :: (Rl ++ X) := by
  have h1 : bodyRun Rl false sk (FILE_MARKER_BEGIN :: (Rl ++ X))
      = bodyRun Rl true true (Rl ++ X) := by
    simp [bodyRun, isBLine_MB]
  rw [h1, bodyRun_reemit Rl hne hcl X, hX]
  simp

/-- The loop output is a fixed point of re-running the loop, from every
reachable pair of re-reading and original states. -/
theorem bodyRun_rerun (Rl : List (List Char)) (hne : Rl ≠ [])
    (hcl : ∀ r ∈ Rl, isBLine r = false ∧ isELine r = false) :
    ∀ ls : List (List Char),
      bodyRun Rl false false (bodyRun Rl false false ls) = bodyRun Rl false false ls
      ∧ bodyRun Rl false false (bodyRun Rl true true ls) = bodyRun Rl true true ls
      ∧ bodyRun Rl false true (bodyRun Rl true true ls) = bodyRun Rl true true ls
      ∧ bodyRun Rl false true (bodyRun Rl false true ls) = bodyRun Rl false true ls := by
  intro ls
  induction ls with
  | nil => simp [bodyRun]
  | cons l ls ih =>
    obtain ⟨ihc, ihb, ihb', ihs⟩ := ih
    by_cases hB : isBLine l = true
    · have hOc : bodyRun Rl false false (l :: ls) = bodyRun Rl true true ls := by
        simp [bodyRun, hB]
      have hOs : bodyRun Rl false true (l :: ls) = bodyRun Rl true true ls := by
        simp [bodyRun, hB]
      have hOb : bodyRun Rl true true (l :: ls)
          = FILE_MARKER_BEGIN :: (Rl ++ bodyRun Rl true true ls) := by
        simp [bodyRun, hB]
      refine ⟨?_, ?_, ?_, ?_⟩
      · rw [hOc]; exact ihb
      · rw [hOb]; exact rerun_chunk Rl hne hcl false _ ihb'
      · rw [hOb]; exact rerun_chunk Rl hne hcl true _ ihb'
      · rw [hOs]; exact ihb'
    · have hB' : isBLine l = false := by
        cases hq : isBLine l
        · rfl
        · exact absurd hq hB
      by_cases hE : isELine l = true
      · have hOc : bodyRun Rl false false (l :: ls)
            = l :: bodyRun Rl false false ls := by
          simp [bodyRun, hB', hE]
        have hOs : bodyRun Rl false true (l :: ls)
            = l :: bodyRun Rl false false ls := by
          simp [bodyRun, hB', hE]
        have hOb : bodyRun Rl true true (l :: ls)
            = FILE_MARKER_BEGIN :: (Rl ++ (l :: bodyRun Rl false false ls)) := by
          simp [bodyRun, hB', hE]
        have hcopy : bodyRun Rl false false (l :: bodyRun Rl false false ls)
            = l :: bodyRun Rl false false ls := by
          simp [bodyRun, hB', hE, ihc]
        have hskip : bodyRun Rl false true (l :: bodyRun Rl false false ls)
            = l :: bodyRun Rl false false ls := by
          simp [bodyRun, hB', hE, ihc]
        refine ⟨?_, ?_, ?_, ?_⟩
        · rw [hOc]; exact hcopy
        · rw [hOb]; exact rerun_chunk Rl hne hcl false _ hskip
        · rw [hOb]; exact rerun_chunk Rl hne hcl true _ hskip
        · rw [hOs]; exact hskip
      · have hE' : isELine l = false := by
          cases hq : isELine l
          · rfl
          · exact absurd hq hE
        have hOc : bodyRun Rl false false (l :: ls)
            = l :: bodyRun Rl false false ls := by
          simp [bodyRun, hB', hE']
        have hOs : bodyRun Rl false true (l :: ls)
            = bodyRun Rl false true ls := by
          simp [bodyRun, hB', hE']
        have hOb : bodyRun Rl true true (l :: ls)
            = FILE_MARKER_BEGIN :: (Rl ++ bodyRun Rl false true ls) := by
          simp [bodyRun, hB', hE']
        refine ⟨?_, ?_, ?_, ?_⟩
        · rw [hOc]; simp [bodyRun, hB', hE', ihc]
        · rw [hOb]; exact rerun_chunk Rl hne hcl false _ ihs
        · rw [hOb]; exact rerun_chunk Rl hne hcl true _ ihs
        · rw [hOs]; exact ihs

theorem wrtRun_true_any {ys : List (List Char)} (h : wrtRun false ys = true) :
    ∀ a : Bool, wrtRun a ys = true := by
  intro a
  cases a
  · exact h
  · cases ys with
    | nil => simp [wrtRun] at h
    | cons y ys => simp [wrtRun]

theorem wrtRun_append_true {ys : List (List Char)} (h : wrtRun false ys = true) :
    ∀ (a : Bool) (xs : List (List Char)), wrtRun a (xs ++ ys) = true := by
  intro a xs
  induction xs generalizing a with
  | nil => simpa using wrtRun_true_any h a
  | cons x xs ih => simp [wrtRun, ih]

/-- From the after-begin state with at least one line left, the loop
output starts with the fresh header, which itself fires on re-reading. -/
theorem bodyRun_true_cons (Rl : List (List Char)) (l : List Char)
    (ls : List (List Char)) :
    ∃ X, bodyRun Rl true true (l :: ls) = FILE_MARKER_BEGIN :: (Rl ++ X) := by
  by_cases hB : isBLine l = true
  · exact ⟨bodyRun Rl true true ls, by simp [bodyRun, hB]⟩
  · have hB' : isBLine l = false := by
      cases hq : isBLine l
      · rfl
      · exact absurd hq hB
    cases hE : isELine l
    · exact ⟨bodyRun Rl false true ls, by simp [bodyRun, hB', hE]⟩
    · exact ⟨l :: bodyRun Rl false false ls, by simp [bodyRun, hB', hE]⟩

theorem wrt_of_bodyRun_true {Rl : List (List Char)} (hne : Rl ≠ [])
    {ls : List (List Char)} (hls : ls ≠ []) :
    wrtRun false (bodyRun Rl true true ls) = true := by
  rcases ls with _ | ⟨l, ls⟩
  · exact absurd rfl hls
  · obtain ⟨X, hX⟩ := bodyRun_true_cons Rl l ls
    rcases Rl with _ | ⟨r, rs⟩
    · exact absurd rfl hne
    · rw [hX]
      simp [wrtRun, isBLine_MB]

/-- Re-reading the loop output still fires the emission whenever the
original run fired it. -/
theorem wrt_of_bodyRun_copy {Rl : List (List Char)} (hne : Rl ≠ []) :
    ∀ ls : List (List Char), wrtRun false ls = true →
      wrtRun false (bodyRun Rl false false ls) = true := by
  intro ls
  induction ls with
  | nil => intro h; simp [wrtRun] at h
  | cons l ls ih =>
    intro h
    by_cases hB : isBLine l = true
    · have h' : wrtRun true ls = true := by simpa [wrtRun, hB] using h
      have hlsne : ls ≠ [] := by
        intro e
        subst e
        simp [wrtRun] at h'
      have hOc : bodyRun Rl false false (l :: ls) = bodyRun Rl true true ls := by
        simp [bodyRun, hB]
      rw [hOc]
      exact wrt_of_bodyRun_true hne hlsne
    · have hB' : isBLine l = false := by
        cases hq : isBLine l
        · rfl
        · exact absurd hq hB
      have h' : wrtRun false ls = true := by simpa [wrtRun, hB'] using h
      cases hE : isELine l <;>
        simpa [bodyRun, wrtRun, hB', hE] using ih h'

/-- When the emission never fired, the loop output contains no
begin-marker line (only copied non-begin lines). -/
theorem noB_of_wrt_false (Rl : List (List Char)) :
    ∀ ls : List (List Char), wrtRun false ls = false →
      ∀ x ∈ bodyRun Rl false false ls, isBLine x = false := by
  intro ls
  induction ls with
  | nil => intro _ x hx; simp [bodyRun] at hx
  | cons l ls ih =>
    intro h x hx
    by_cases hB : isBLine l = true
    · have h' : wrtRun true ls = false := by simpa [wrtRun, hB] using h
      have hls : ls = [] := by
        cases ls with
        | nil => rfl
        | cons z zs => simp [wrtRun] at h'
      subst hls
      simp [bodyRun, hB] at hx
    · have hB' : isBLine l = false := by
        cases hq : isBLine l
        · rfl
        · exact absurd hq hB
      have h' : wrtRun false ls = false := by simpa [wrtRun, hB'] using h
      cases hE : isELine l <;>
        · simp [bodyRun, hB', hE] at hx
          rcases hx with rfl | hx
          · exact hB'
          · exact ih h' x hx

/-- Line-level idempotence of the updater, for a nonempty marker-free
replacement block. -/
theorem lineUpd_idem (Rl : List (List Char)) (hne : Rl ≠ [])
    (hcl : ∀ r ∈ Rl, isBLine r = false ∧ isELine r = false)
    (ls : List (List Char)) :
    lineUpd Rl (lineUpd Rl ls) = lineUpd Rl ls := by
  by_cases hw : wrtRun false ls = true
  · have h1 : lineUpd Rl ls = bodyRun Rl false false ls := by
      rw [lineUpd, if_pos hw]
    have hw2 : wrtRun false (bodyRun Rl false false ls) = true :=
      wrt_of_bodyRun_copy hne ls hw
    rw [h1, lineUpd, if_pos hw2]
    exact (bodyRun_rerun Rl hne hcl ls).1
  · have hwf : wrtRun false ls = false := by
      cases hq : wrtRun false ls
      · rfl
      · exact absurd hq hw
    have h1 : lineUpd Rl ls
        = bodyRun Rl false false ls ++ FILE_MARKER_BEGIN :: (Rl ++ [FILE_MARKER_END]) := by
      rw [lineUpd, if_neg hw]
    have hnoB : ∀ x ∈ bodyRun Rl false false ls, isBLine x = false :=
      noB_of_wrt_false Rl ls hwf
    have hwrt_tail : wrtRun false (FILE_MARKER_BEGIN :: (Rl ++ [FILE_MARKER_END])) = true := by
      rcases Rl with _ | ⟨r, rs⟩
      · exact absurd rfl hne
      · simp [wrtRun, isBLine_MB]
    have hw2 : wrtRun false
        (bodyRun Rl false false ls ++ FILE_MARKER_BEGIN :: (Rl ++ [FILE_MARKER_END])) = true :=
      wrtRun_append_true hwrt_tail false _
    rw [h1, lineUpd, if_pos hw2,
      bodyRun_copy Rl (bodyRun Rl false false ls) _ hnoB]
    have hME : bodyRun Rl false true [FILE_MARKER_END] = [FILE_MARKER_END] := by
      simp [bodyRun, isBLine_ME, isELine_ME]
    rw [rerun_chunk Rl hne hcl false [FILE_MARKER_END] hME]

/-- Each output line of the loop is an input line, the begin marker, or
a replacement line. -/
theorem mem_bodyRun (Rl : List (List Char)) :
    ∀ (ls : List (List Char)) (a s : Bool) (x : List Char),
      x ∈ bodyRun Rl a s ls → x ∈ ls ∨ x = FILE_MARKER_BEGIN ∨ x ∈ Rl := by
  intro ls
  induction ls with
  | nil => intro a s x hx; simp [bodyRun] at hx
  | cons l ls ih =>
    intro a s x hx
    simp only [bodyRun] at hx
    rcases List.mem_append.mp hx with h | h
    · cases a
      · simp at h
      · simp only [if_pos rfl] at h
        rcases List.mem_cons.mp h with rfl | h
        · exact Or.inr (Or.inl rfl)
        · exact Or.inr (Or.inr h)
    · by_cases hB : isBLine l = true
      · rw [if_pos hB] at h
        rcases ih true true x h with h | h
        · exact Or.inl (List.mem_cons_of_mem l h)
        · exact Or.inr h
      · have hB' : isBLine l = false := by
          cases hq : isBLine l
          · rfl
          · exact absurd hq hB
        rw [if_neg (by simp [hB'])] at h
        by_cases hE : isELine l = true
        · rw [if_pos hE] at h
          rcases List.mem_cons.mp h with rfl | h
          · exact Or.inl (List.mem_cons_self x ls)
          · rcases ih false false x h with h | h
            · exact Or.inl (List.mem_cons_of_mem l h)
            · exact Or.inr h
        · rw [if_neg hE] at h
          cases s
          · rw [if_neg (by simp)] at h
            rcases List.mem_cons.mp h with rfl | h
            · exact Or.inl (List.mem_cons_self x ls)
            · rcases ih false false x h with h | h
              · exact Or.inl (List.mem_cons_of_mem l h)
              · exact Or.inr h
          · rw [if_pos rfl] at h
            rcases ih false true x h with h | h
            · exact Or.inl (List.mem_cons_of_mem l h)
            · exact Or.inr h

/-- Each output line of the whole update is an input line, a marker, or
a replacement line. -/
theorem mem_lineUpd {Rl ls : List (List Char)} {x : List Char}
    (hx : x ∈ lineUpd Rl ls) :
    x ∈ ls ∨ x = FILE_MARKER_BEGIN ∨ x ∈ Rl ∨ x = FILE_MARKER_END := by
  rw [lineUpd] at hx
  by_cases hw : wrtRun false ls = true
  · rw [if_pos hw] at hx
    rcases mem_bodyRun Rl ls false false x hx with h | h | h
    · exact Or.inl h
    · exact Or.inr (Or.inl h)
    · exact Or.inr (Or.inr (Or.inl h))
  · rw [if_neg hw] at hx
    rcases List.mem_append.mp hx with h | h
    · rcases mem_bodyRun Rl ls false false x h with h | h | h
      · exact Or.inl h
      · exact Or.inr (Or.inl h)
      · exact Or.inr (Or.inr (Or.inl h))
    · rcases List.mem_cons.mp h with rfl | h
      · exact Or.inr (Or.inl rfl)
      · rcases List.mem_append.mp h with h | h
        · exact Or.inr (Or.inr (Or.inl h))
        · rcases List.mem_cons.mp h with rfl | h
          · exact Or.inr (Or.inr (Or.inr rfl))
          · simp at h

theorem termLine_MB : TermLine FILE_MARKER_BEGIN :=
  ⟨"### GENERATED SECTION - DO NOT MODIFY - BEGIN ###".data, by decide, by decide⟩

theorem termLine_ME : TermLine FILE_MARKER_END :=
  ⟨"### GENERATED SECTION - DO NOT MODIFY - END ###".data, by decide, by decide⟩

/-- Content-level idempotence of `_update_file`, for newline-terminated
(or empty) input and a replacement free of marker text. -/
theorem update_file_idem_general (c u : List Char)
    (hc : c = [] ∨ ∃ c0, c = c0 ++ ['\n'])
    (hB : hasSub FILE_MARKER_BEGIN (u ++ ['\n']) = false)
    (hE : hasSub FILE_MARKER_END (u ++ ['\n']) = false) :
    update_file (update_file c u) u = update_file c u := by
  have hne : splitLines (u ++ ['\n']) ≠ [] := splitLines_ne_nil (by simp)
  have hcl : ∀ r ∈ splitLines (u ++ ['\n']), isBLine r = false ∧ isELine r = false :=
    fun r hr => ⟨hasSub_line_of_stream hB hr, hasSub_line_of_stream hE hr⟩
  have hterm0 : ∀ l ∈ splitLines c, TermLine l := by
    rcases hc with rfl | ⟨c0, rfl⟩
    · simp [splitLines, splitLinesAux]
    · exact termLine_splitLines c0
  have htermR : ∀ l ∈ splitLines (u ++ ['\n']), TermLine l := termLine_splitLines u
  have hterm : ∀ l ∈ lineUpd (splitLines (u ++ ['\n'])) (splitLines c), TermLine l := by
    intro l hl
    rcases mem_lineUpd hl with h | rfl | h | rfl
    · exact hterm0 l h
    · exact termLine_MB
    · exact htermR l h
    · exact termLine_ME
  rw [update_file_eq_lineUpd c u]
  rw [update_file_eq_lineUpd _ u]
  rw [splitLines_join _ hterm]
  rw [lineUpd_idem _ hne hcl]

theorem updStepT_eq (u : List Char) (st : UpdStT) (l : List Char) :
    updStepT u st l =
      ⟨isBLine l, nextSkip st.skip_line l,
       st.update_written || st.add_content,
       st.ops ++ (if st.add_content then [FsOp.writeTmp FILE_MARKER_BEGIN,
                                          FsOp.writeTmp (u ++ ['\n'])] else [])
         ++ (if nextSkip st.skip_line l then [] else [FsOp.writeTmp l])⟩ := by
  obtain ⟨a, s, w, o⟩ := st
  cases a <;> cases s <;> cases hB : isBLine l <;> cases hE : isELine l <;>
    simp [updStepT, nextSkip, hB, hE]

/-- The trace run and the content run agree on the loop flags, and the
operations appended by the loop are exactly the temporary-file writes
whose concatenated data is the content-run output. -/
theorem foldl_updStepT_eq (u : List Char) :
    ∀ (ls : List (List Char)) (a s w : Bool) (pre : List FsOp)
      (ws : List (List Char)),
      ∃ ws' : List (List Char),
        ls.foldl (updStepT u) ⟨a, s, w, pre ++ ws.map FsOp.writeTmp⟩
          = ⟨(ls.foldl (updStep u) ⟨a, s, w, ws.flatten⟩).add_content,
             (ls.foldl (updStep u) ⟨a, s, w, ws.flatten⟩).skip_line,
             (ls.foldl (updStep u) ⟨a, s, w, ws.flatten⟩).update_written,
             pre ++ ws'.map FsOp.writeTmp⟩
        ∧ ws'.flatten = (ls.foldl (updStep u) ⟨a, s, w, ws.flatten⟩).out := by
  intro ls
  induction ls with
  | nil =>
    intro a s w pre ws
    exact ⟨ws, rfl, rfl⟩
  | cons l ls ih =>
    intro a s w pre ws
    rw [List.foldl_cons, List.foldl_cons,
      updStepT_eq u ⟨a, s, w, pre ++ ws.map FsOp.writeTmp⟩ l,
      updStep_eq u ⟨a, s, w, ws.flatten⟩ l]
    simp only
    have hops : (pre ++ ws.map FsOp.writeTmp)
        ++ (if a then [FsOp.writeTmp FILE_MARKER_BEGIN,
                       FsOp.writeTmp (u ++ ['\n'])] else [])
        ++ (if nextSkip s l then [] else [FsOp.writeTmp l])
        = pre ++ ((ws ++ (if a then [FILE_MARKER_BEGIN, u ++ ['\n']] else [])
            ++ (if nextSkip s l then [] else [l])).map FsOp.writeTmp) := by
      cases a <;> cases hns : nextSkip s l <;> simp
    have hout : (ws ++ (if a then [FILE_MARKER_BEGIN, u ++ ['\n']] else [])
            ++ (if nextSkip s l then [] else [l])).flatten
        = ws.flatten ++ (if a then FILE_MARKER_BEGIN ++ (u ++ ['\n']) else [])
            ++ (if nextSkip s l then [] else l) := by
      cases a <;> cases hns : nextSkip s l <;> simp
    rw [hops, ← hout]
    exact ih (isBLine l) (nextSkip s l) (w || a) pre
      (ws ++ (if a then [FILE_MARKER_BEGIN, u ++ ['\n']] else [])
          ++ (if nextSkip s l then [] else [l]))

theorem renderFmt_nil (bid btarget fname : List Char) :
    renderFmt [] bid btarget fname = [] := rfl

theorem renderFmt_cons (tok : FmtTok) (t : List FmtTok) (bid btarget fname : List Char) :
    renderFmt (tok :: t) bid btarget fname
      = (match tok with
         | FmtTok.lit s => s
         | FmtTok.fBuildId => bid
         | FmtTok.fBuildTarget => btarget
         | FmtTok.fFilename => fname) ++ renderFmt t bid btarget fname := by
  simp [renderFmt]

/-- Rendering is monotone in the length of the `build_id` value. -/
theorem renderFmt_len_le (b1 b2 bt f : List Char) (hle : b1.length ≤ b2.length) :
    ∀ t : List FmtTok,
      (renderFmt t b1 bt f).length ≤ (renderFmt t b2 bt f).length := by
  intro t
  induction t with
  | nil => simp [renderFmt]
  | cons tok t ih =>
    rw [renderFmt_cons, renderFmt_cons]
    cases tok <;> simp only [List.length_append] <;> omega

/-- A format string that mentions `build_id` renders strictly longer
under a strictly longer `build_id` value. -/
theorem renderFmt_len_lt (b1 b2 bt f : List Char) (hlt : b1.length < b2.length) :
    ∀ t : List FmtTok, FmtTok.fBuildId ∈ t →
      (renderFmt t b1 bt f).length < (renderFmt t b2 bt f).length := by
  intro t
  induction t with
  | nil => intro h; simp at h
  | cons tok t ih =>
    intro hmem
    rw [renderFmt_cons, renderFmt_cons]
    rcases List.mem_cons.mp hmem with rfl | hmem'
    · have := renderFmt_len_le b1 b2 bt f (Nat.le_of_lt hlt) t
      simp only [List.length_append]
      omega
    · have := ih hmem'
      cases tok <;> simp only [List.length_append] <;> omega

/-- A format string that does not mention `build_id` renders
identically under any `build_id` value. -/
theorem renderFmt_congr (b1 b2 bt f : List Char) :
    ∀ t : List FmtTok, FmtTok.fBuildId ∉ t →
      renderFmt t b1 bt f = renderFmt t b2 bt f := by
  intro t
  induction t with
  | nil => intro _; rfl
  | cons tok t ih =>
    intro hmem
    have h1 : tok ≠ FmtTok.fBuildId := fun h => hmem (h ▸ List.mem_cons_self tok t)
    have h2 : FmtTok.fBuildId ∉ t := fun h => hmem (List.mem_cons_of_mem tok h)
    rw [renderFmt_cons, renderFmt_cons, ih h2]
    cases tok with
    | lit s => rfl
    | fBuildId => exact absurd rfl h1
    | fBuildTarget => rfl
    | fFilename => rfl

/-- A falsy `build_id` renders shorter than the fake placeholder. -/
theorem pyStrOpt_falsy_len {bid : Option (List Char)}
    (h : pyTruthy bid = false) :
    (pyStrOpt bid).length < FAKE_BUILD_ID.length := by
  cases bid with
  | none => decide
  | some s =>
    have hs : s.isEmpty = true := by simpa [pyTruthy] using h
    have : s = [] := by simpa [List.isEmpty_iff] using hs
    subst this
    decide

/-- C7: `_update_file` touches the filesystem only by one read of the
target, writes that all go to the temporary file, and a single final
move of the temporary file onto the target path, and the bytes written
to the temporary file concatenate to exactly the new content — so the
target is never partially overwritten, and a run interrupted before the
final move leaves the original target untouched. -/
theorem c7_update_file_atomic (path c u : List Char) :
    ∃ ws : List (List Char),
      update_file_ops path c u
        = FsOp.readFile path :: (ws.map FsOp.writeTmp ++ [FsOp.moveTmpTo path])
      ∧ ws.flatten = update_file c u := by
  obtain ⟨ws', h1, h2⟩ := foldl_updStepT_eq u (splitLines c) false false false
    [FsOp.readFile path] []
  simp only [List.map_nil, List.append_nil, List.flatten_nil] at h1 h2
  rw [update_file_ops, update_file, h1]
  by_cases hw : ((splitLines c).foldl (updStep u)
      ⟨false, false, false, []⟩).update_written = true
  · refine ⟨ws', ?_, ?_⟩
    · simp [hw]
    · rw [h2, if_pos hw]
  · refine ⟨ws' ++ [FILE_MARKER_BEGIN, u ++ ['\n'], FILE_MARKER_END], ?_, ?_⟩
    · simp [hw]
    · rw [if_neg hw]
      simp [h2]

/-- C8: when `--url_fmt` is unset, or the URL cannot be resolved
(`_get_url` returned `None`), `_download` logs an error and returns
without invoking the download subprocess. -/
theorem c8_download_degraded (build_id build_target : Option (List Char))
    (rf ofn : List Char) :
    download none build_id build_target rf ofn = DlResult.errNoUrlFmt
    ∧ ∀ t : List FmtTok, get_url t build_id build_target rf = none →
        download (some t) build_id build_target rf ofn = DlResult.errNoBuildId := by
  constructor
  · rfl
  · intro t h
    simp [download, h]

theorem c8_download_degraded_witness :
    download none none none [] [] = DlResult.errNoUrlFmt
    ∧ get_url [FmtTok.fBuildId] none none [] = none
    ∧ download (some [FmtTok.fBuildId]) none none [] [] = DlResult.errNoBuildId :=
  ⟨(c8_download_degraded none none [] []).1, by decide,
   (c8_download_degraded none none [] []).2 [FmtTok.fBuildId] (by decide)⟩

/-- C9: with a falsy `build_id`, `_get_url` returns `None` exactly when
the format string actually mentions the `build_id` field (the
fake-placeholder comparison detects precisely that); when the format
string does not reference `build_id`, the URL is returned even though
`build_id` is missing. -/
theorem c9_get_url_none_iff (t : List FmtTok)
    (build_id build_target : Option (List Char)) (fn : List Char)
    (hfalsy : pyTruthy build_id = false) :
    (get_url t build_id build_target fn = none ↔ FmtTok.fBuildId ∈ t)
    ∧ (FmtTok.fBuildId ∉ t →
        get_url t build_id build_target fn
          = some (renderFmt t (pyStrOpt build_id) (pyStrOpt build_target)
              (pyQuote fn))) := by
  have hsome : FmtTok.fBuildId ∉ t →
      get_url t build_id build_target fn
        = some (renderFmt t (pyStrOpt build_id) (pyStrOpt build_target)
            (pyQuote fn)) := by
    intro hmem
    have heq := renderFmt_congr (pyStrOpt build_id) FAKE_BUILD_ID
      (pyStrOpt build_target) (pyQuote fn) t hmem
    rw [get_url, if_neg]
    intro hand
    exact hand.2 heq
  refine ⟨⟨?_, ?_⟩, hsome⟩
  · intro hnone
    by_contra hmem
    rw [hsome hmem] at hnone
    exact Option.noConfusion hnone
  · intro hmem
    have hlt := renderFmt_len_lt (pyStrOpt build_id) FAKE_BUILD_ID
      (pyStrOpt build_target) (pyQuote fn) (pyStrOpt_falsy_len hfalsy) t hmem
    have hne : renderFmt t (pyStrOpt build_id) (pyStrOpt build_target) (pyQuote fn)
        ≠ renderFmt t FAKE_BUILD_ID (pyStrOpt build_target) (pyQuote fn) := by
      intro he
      rw [he] at hlt
      exact Nat.lt_irrefl _ hlt
    rw [get_url, if_pos ⟨hfalsy, hne⟩]

theorem c9_get_url_none_iff_witness :
    pyTruthy (none : Option (List Char)) = false
    ∧ ((get_url [FmtTok.fBuildId] none none [] = none
          ↔ FmtTok.fBuildId ∈ ([FmtTok.fBuildId] : List FmtTok))
      ∧ (FmtTok.fBuildId ∉ ([FmtTok.fBuildId] : List FmtTok) →
          get_url [FmtTok.fBuildId] none none []
            = some (renderFmt [FmtTok.fBuildId] (pyStrOpt none) (pyStrOpt none)
                (pyQuote [])))) :=
  ⟨by decide, c9_get_url_none_iff [FmtTok.fBuildId] none none [] (by decide)⟩

/-! Line decompositions of the updater output, shared by the claims
about section structure. -/
theorem termLines_of_terminated {c : List Char}
    (hc : c = [] ∨ ∃ c0, c = c0 ++ ['\n']) :
    ∀ l ∈ splitLines c, TermLine l := by
  rcases hc with rfl | ⟨c0, rfl⟩
  · simp [splitLines, splitLinesAux]
  · exact termLine_splitLines c0

/-- Output lines of a no-marker update: the input lines, then the fresh
section. -/
theorem splitLines_update_no_marker (c u : List Char)
    (hc : c = [] ∨ ∃ c0, c = c0 ++ ['\n'])
    (h : ∀ l ∈ splitLines c, isBLine l = false) :
    splitLines (update_file c u)
      = splitLines c
        ++ FILE_MARKER_BEGIN :: (splitLines (u ++ ['\n']) ++ [FILE_MARKER_END]) := by
  rw [update_file_no_marker c u h]
  have hflat : c ++ FILE_MARKER_BEGIN ++ (u ++ ['\n']) ++ FILE_MARKER_END
      = (splitLines c
          ++ FILE_MARKER_BEGIN :: (splitLines (u ++ ['\n'])
            ++ [FILE_MARKER_END])).flatten := by
    simp [join_splitLines]
  rw [hflat]
  apply splitLines_join
  intro l hl
  rcases List.mem_append.mp hl with h1 | h1
  · exact termLines_of_terminated hc l h1
  · rcases List.mem_cons.mp h1 with rfl | h1
    · exact termLine_MB
    · rcases List.mem_append.mp h1 with h1 | h1
      · exact termLine_splitLines u l h1
      · rcases List.mem_cons.mp h1 with rfl | h1
        · exact termLine_ME
        · simp at h1

/-- Output lines of a single-section update: `pre`, the fresh header,
the replacement lines, the original end line, `post`. -/
theorem splitLines_update_struct (c u : List Char)
    (pre mid post : List (List Char)) (b e : List Char)
    (hc : c = [] ∨ ∃ c0, c = c0 ++ ['\n'])
    (hsp : splitLines c = pre ++ b :: (mid ++ e :: post))
    (hpre : ∀ x ∈ pre, isBLine x = false)
    (hmid : ∀ x ∈ mid, isBLine x = false ∧ isELine x = false)
    (hpost : ∀ x ∈ post, isBLine x = false)
    (hb : isBLine b = true) (heB : isBLine e = false) (heE : isELine e = true) :
    splitLines (update_file c u)
      = pre ++ FILE_MARKER_BEGIN :: (splitLines (u ++ ['\n']) ++ e :: post) := by
  rw [update_file_struct c u pre mid post b e hsp hpre hmid hpost hb heB heE]
  have hflat : pre.flatten ++ FILE_MARKER_BEGIN ++ (u ++ ['\n']) ++ e ++ post.flatten
      = (pre ++ FILE_MARKER_BEGIN :: (splitLines (u ++ ['\n'])
          ++ e :: post)).flatten := by
    simp [join_splitLines]
  rw [hflat]
  apply splitLines_join
  intro l hl
  have hterm0 := termLines_of_terminated hc
  rcases List.mem_append.mp hl with h1 | h1
  · exact hterm0 l (by rw [hsp]; simp [h1])
  · rcases List.mem_cons.mp h1 with rfl | h1
    · exact termLine_MB
    · rcases List.mem_append.mp h1 with h1 | h1
      · exact termLine_splitLines u l h1
      · rcases List.mem_cons.mp h1 with rfl | h1
        · exact hterm0 l (by rw [hsp]; simp)
        · exact hterm0 l (by rw [hsp]; simp [h1])

/-- C1 (amended): for file content that is empty or newline-terminated,
and replacement text that (with its appended newline) contains neither
marker constant as a substring, `_update_file` is idempotent: a second
run with the same replacement reproduces the first run's output byte
for byte. -/
theorem c1_update_file_idem (c u : List Char)
    (hc : c = [] ∨ ∃ c0, c = c0 ++ ['\n'])
    (hB : hasSub FILE_MARKER_BEGIN (u ++ ['\n']) = false)
    (hE : hasSub FILE_MARKER_END (u ++ ['\n']) = false) :
    update_file (update_file c u) u = update_file c u := by
  exact update_file_idem_general c u hc hB hE

/-- C1 counterexample: on the one-character file `x` (a text file whose
final line lacks a trailing newline) with replacement `new`, running
`_update_file` twice differs from running it once: the appended begin
marker merges with `x` into a single line, which the second run treats
as the begin-marker line and drops. -/
theorem c1_update_file_not_idem :
    update_file (update_file "x".data "new".data) "new".data
      ≠ update_file "x".data "new".data := by decide

theorem c1_update_file_idem_witness :
    (("a\n".data : List Char) = [] ∨ ∃ c0, "a\n".data = c0 ++ ['\n'])
    ∧ hasSub FILE_MARKER_BEGIN ("new".data ++ ['\n']) = false
    ∧ hasSub FILE_MARKER_END ("new".data ++ ['\n']) = false
    ∧ update_file (update_file "a\n".data "new".data) "new".data
        = update_file "a\n".data "new".data :=
  ⟨Or.inr ⟨"a".data, by decide⟩, by decide, by decide,
   c1_update_file_idem "a\n".data "new".data (Or.inr ⟨"a".data, by decide⟩)
     (by decide) (by decide)⟩

/-- C2 (amended): for replacement text free of marker substrings and a
newline-terminated (or empty) input that either contains no marker
lines at all, or consists of exactly one begin-marker line followed by
an end-marker line with marker-free lines elsewhere, the output
contains exactly one line with the begin marker and exactly one line
with the end marker. -/
theorem c2_single_section (c u : List Char)
    (hc : c = [] ∨ ∃ c0, c = c0 ++ ['\n'])
    (hRB : hasSub FILE_MARKER_BEGIN (u ++ ['\n']) = false)
    (hRE : hasSub FILE_MARKER_END (u ++ ['\n']) = false)
    (hshape : (∀ l ∈ splitLines c, isBLine l = false ∧ isELine l = false)
      ∨ ∃ pre mid post b e, splitLines c = pre ++ b :: (mid ++ e :: post)
          ∧ (∀ x ∈ pre, isBLine x = false ∧ isELine x = false)
          ∧ (∀ x ∈ mid, isBLine x = false ∧ isELine x = false)
          ∧ (∀ x ∈ post, isBLine x = false ∧ isELine x = false)
          ∧ isBLine b = true ∧ isBLine e = false ∧ isELine e = true) :
    (splitLines (update_file c u)).countP (fun l => isBLine l) = 1
    ∧ (splitLines (update_file c u)).countP (fun l => isELine l) = 1 := by
  have hRl : ∀ r ∈ splitLines (u ++ ['\n']), isBLine r = false ∧ isELine r = false :=
    fun r hr => ⟨hasSub_line_of_stream hRB hr, hasSub_line_of_stream hRE hr⟩
  have hRlB : (splitLines (u ++ ['\n'])).countP (fun l => isBLine l) = 0 := by
    rw [List.countP_eq_zero]
    intro a ha
    simp [(hRl a ha).1]
  have hRlE : (splitLines (u ++ ['\n'])).countP (fun l => isELine l) = 0 := by
    rw [List.countP_eq_zero]
    intro a ha
    simp [(hRl a ha).2]
  rcases hshape with hA | ⟨pre, mid, post, b, e, hsp, hpre, hmid, hpost, hb, heB, heE⟩
  · have hcB : (splitLines c).countP (fun l => isBLine l) = 0 := by
      rw [List.countP_eq_zero]
      intro a ha
      simp [(hA a ha).1]
    have hcE : (splitLines c).countP (fun l => isELine l) = 0 := by
      rw [List.countP_eq_zero]
      intro a ha
      simp [(hA a ha).2]
    rw [splitLines_update_no_marker c u hc (fun l hl => (hA l hl).1)]
    constructor <;>
      simp [List.countP_append, List.countP_cons, hcB, hcE, hRlB, hRlE,
        isBLine_MB, isELine_MB, isBLine_ME, isELine_ME]
  · have hpreB : (pre.countP (fun l => isBLine l)) = 0 := by
      rw [List.countP_eq_zero]
      intro a ha
      simp [(hpre a ha).1]
    have hpreE : (pre.countP (fun l => isELine l)) = 0 := by
      rw [List.countP_eq_zero]
      intro a ha
      simp [(hpre a ha).2]
    have hpostB : (post.countP (fun l => isBLine l)) = 0 := by
      rw [List.countP_eq_zero]
      intro a ha
      simp [(hpost a ha).1]
    have hpostE : (post.countP (fun l => isELine l)) = 0 := by
      rw [List.countP_eq_zero]
      intro a ha
      simp [(hpost a ha).2]
    rw [splitLines_update_struct c u pre mid post b e hc hsp
      (fun x hx => (hpre x hx).1) hmid (fun x hx => (hpost x hx).1) hb heB heE]
    constructor <;>
      simp [List.countP_append, List.countP_cons, hpreB, hpreE, hpostB, hpostE,
        hRlB, hRlE, isBLine_MB, isELine_MB, heB, heE]

/-- C2 counterexample: a file consisting of a single end-marker line
(and no begin marker) yields an output with two end-marker lines — the
orphan end line is copied and a fresh section is appended after it. -/
theorem c2_not_single_section :
    ¬ ((splitLines (update_file FILE_MARKER_END "new".data)).countP
          (fun l => isBLine l) = 1
       ∧ (splitLines (update_file FILE_MARKER_END "new".data)).countP
          (fun l => isELine l) = 1) := by
  decide

theorem c2_single_section_witness :
    (("a\n".data : List Char) = [] ∨ ∃ c0, "a\n".data = c0 ++ ['\n'])
    ∧ hasSub FILE_MARKER_BEGIN ("new".data ++ ['\n']) = false
    ∧ hasSub FILE_MARKER_END ("new".data ++ ['\n']) = false
    ∧ (∀ l ∈ splitLines "a\n".data, isBLine l = false ∧ isELine l = false)
    ∧ (splitLines (update_file "a\n".data "new".data)).countP
        (fun l => isBLine l) = 1
    ∧ (splitLines (update_file "a\n".data "new".data)).countP
        (fun l => isELine l) = 1 := by
  refine ⟨Or.inr ⟨"a".data, by decide⟩, by decide, by decide, by decide, ?_⟩
  exact c2_single_section "a\n".data "new".data (Or.inr ⟨"a".data, by decide⟩)
    (by decide) (by decide) (Or.inl (by decide))

/-- C3 (amended): for a newline-terminated input consisting of a single
well-formed marker section with marker-free lines outside it, every
line outside the section appears unchanged and in the same relative
order in the output — the `pre` lines before the section, the `post`
lines after it (the output lines are exactly `pre`, fresh header,
replacement lines, original end line, `post`). -/
theorem c3_outside_preserved (c u : List Char)
    (pre mid post : List (List Char)) (b e : List Char)
    (hc : c = [] ∨ ∃ c0, c = c0 ++ ['\n'])
    (hsp : splitLines c = pre ++ b :: (mid ++ e :: post))
    (hpre : ∀ x ∈ pre, isBLine x = false)
    (hmid : ∀ x ∈ mid, isBLine x = false ∧ isELine x = false)
    (hpost : ∀ x ∈ post, isBLine x = false)
    (hb : isBLine b = true) (heB : isBLine e = false) (heE : isELine e = true) :
    splitLines (update_file c u)
      = pre ++ FILE_MARKER_BEGIN :: (splitLines (u ++ ['\n']) ++ e :: post)
    ∧ (pre ++ post).Sublist (splitLines (update_file c u)) := by
  have h := splitLines_update_struct c u pre mid post b e hc hsp hpre hmid
    hpost hb heB heE
  refine ⟨h, ?_⟩
  rw [h]
  have h2 : (FILE_MARKER_BEGIN :: (splitLines (u ++ ['\n']) ++ [e])) ++ post
      = FILE_MARKER_BEGIN :: (splitLines (u ++ ['\n']) ++ e :: post) := by
    simp
  rw [← h2]
  exact (List.Sublist.refl pre).append (List.sublist_append_right _ _)

/-- C3 counterexample: the input consisting of a begin-marker line
followed by the line `x` contains no end marker, hence no
marker-delimited section, so the line `x` lies outside every section;
yet the output does not contain it — it is suppressed by the skip
state that the orphan begin marker switched on. -/
theorem c3_outside_not_preserved :
    (∀ l ∈ splitLines (FILE_MARKER_BEGIN ++ "x\n".data), isELine l = false)
    ∧ "x\n".data ∈ splitLines (FILE_MARKER_BEGIN ++ "x\n".data)
    ∧ "x\n".data ∉
        splitLines (update_file (FILE_MARKER_BEGIN ++ "x\n".data) "new".data) := by
  refine ⟨by decide, by decide, by decide⟩

theorem c3_outside_preserved_witness :
    (("p\n".data ++ FILE_MARKER_BEGIN ++ "m\n".data ++ FILE_MARKER_END
        ++ "q\n".data : List Char) = []
      ∨ ∃ c0, "p\n".data ++ FILE_MARKER_BEGIN ++ "m\n".data ++ FILE_MARKER_END
          ++ "q\n".data = c0 ++ ['\n'])
    ∧ splitLines ("p\n".data ++ FILE_MARKER_BEGIN ++ "m\n".data
        ++ FILE_MARKER_END ++ "q\n".data)
      = ["p\n".data] ++ FILE_MARKER_BEGIN :: (["m\n".data]
          ++ FILE_MARKER_END :: ["q\n".data])
    ∧ (splitLines (update_file ("p\n".data ++ FILE_MARKER_BEGIN ++ "m\n".data
          ++ FILE_MARKER_END ++ "q\n".data) "new".data)
        = ["p\n".data] ++ FILE_MARKER_BEGIN :: (splitLines ("new".data ++ ['\n'])
            ++ FILE_MARKER_END :: ["q\n".data])
      ∧ (["p\n".data] ++ ["q\n".data]).Sublist
          (splitLines (update_file ("p\n".data ++ FILE_MARKER_BEGIN ++ "m\n".data
            ++ FILE_MARKER_END ++ "q\n".data) "new".data))) := by
  refine ⟨Or.inr ⟨("p\n".data ++ FILE_MARKER_BEGIN ++ "m\n".data
      ++ FILE_MARKER_END ++ "q\n".data).dropLast, by decide⟩, by decide, ?_⟩
  exact c3_outside_preserved _ "new".data ["p\n".data] ["m\n".data] ["q\n".data]
    FILE_MARKER_BEGIN FILE_MARKER_END
    (Or.inr ⟨("p\n".data ++ FILE_MARKER_BEGIN ++ "m\n".data
      ++ FILE_MARKER_END ++ "q\n".data).dropLast, by decide⟩)
    (by decide) (by decide) (by decide) (by decide)
    isBLine_MB isBLine_ME isELine_ME

/-- C4: on the five-line file `a`, begin marker, `old`, end marker, `b`,
updating with `new` yields `a`, begin marker, `new`, end marker, `b`;
and in general, for a file built from marker-free newline-terminated
line blocks `pre`, `mid` (the existing body), `post` around an exact
marker pair, the body is fully replaced by the new text and the content
outside the section is untouched. -/
theorem c4_replacement (u : List Char) (pre mid post : List (List Char))
    (hpreB : ∀ x ∈ pre, isBLine x = false) (hpreT : ∀ x ∈ pre, TermLine x)
    (hmid : ∀ x ∈ mid, isBLine x = false ∧ isELine x = false)
    (hmidT : ∀ x ∈ mid, TermLine x)
    (hpostB : ∀ x ∈ post, isBLine x = false) (hpostT : ∀ x ∈ post, TermLine x) :
    update_file ("a\n".data ++ FILE_MARKER_BEGIN ++ "old\n".data
        ++ FILE_MARKER_END ++ "b\n".data) "new".data
      = "a\n".data ++ FILE_MARKER_BEGIN ++ "new\n".data
        ++ FILE_MARKER_END ++ "b\n".data
    ∧ update_file (pre.flatten ++ FILE_MARKER_BEGIN ++ mid.flatten
        ++ FILE_MARKER_END ++ post.flatten) u
      = pre.flatten ++ FILE_MARKER_BEGIN ++ (u ++ ['\n'])
        ++ FILE_MARKER_END ++ post.flatten := by
  constructor
  · decide
  · have hsp : splitLines (pre.flatten ++ FILE_MARKER_BEGIN ++ mid.flatten
        ++ FILE_MARKER_END ++ post.flatten)
        = pre ++ FILE_MARKER_BEGIN :: (mid ++ FILE_MARKER_END :: post) := by
      have hflat : pre.flatten ++ FILE_MARKER_BEGIN ++ mid.flatten
          ++ FILE_MARKER_END ++ post.flatten
          = (pre ++ FILE_MARKER_BEGIN :: (mid ++ FILE_MARKER_END :: post)).flatten := by
        simp
      rw [hflat]
      apply splitLines_join
      intro l hl
      rcases List.mem_append.mp hl with h1 | h1
      · exact hpreT l h1
      · rcases List.mem_cons.mp h1 with rfl | h1
        · exact termLine_MB
        · rcases List.mem_append.mp h1 with h1 | h1
          · exact hmidT l h1
          · rcases List.mem_cons.mp h1 with rfl | h1
            · exact termLine_ME
            · exact hpostT l h1
    exact update_file_struct _ u pre mid post FILE_MARKER_BEGIN FILE_MARKER_END
      hsp hpreB hmid hpostB isBLine_MB isBLine_ME isELine_ME

theorem c4_replacement_witness :
    ((∀ x ∈ (["p\n".data] : List (List Char)), isBLine x = false)
      ∧ (∀ x ∈ (["p\n".data] : List (List Char)), TermLine x)
      ∧ (∀ x ∈ (["m\n".data] : List (List Char)),
          isBLine x = false ∧ isELine x = false)
      ∧ (∀ x ∈ (["m\n".data] : List (List Char)), TermLine x)
      ∧ (∀ x ∈ (["q\n".data] : List (List Char)), isBLine x = false)
      ∧ (∀ x ∈ (["q\n".data] : List (List Char)), TermLine x))
    ∧ update_file ((["p\n".data] : List (List Char)).flatten ++ FILE_MARKER_BEGIN
        ++ (["m\n".data] : List (List Char)).flatten ++ FILE_MARKER_END
        ++ (["q\n".data] : List (List Char)).flatten) "new".data
      = (["p\n".data] : List (List Char)).flatten ++ FILE_MARKER_BEGIN
        ++ ("new".data ++ ['\n']) ++ FILE_MARKER_END
        ++ (["q\n".data] : List (List Char)).flatten := by
  have hT : ∀ m : List Char, '\n' ∉ m →
      ∀ x ∈ ([m ++ ['\n']] : List (List Char)), TermLine x := by
    intro m hm x hx
    simp only [List.mem_singleton] at hx
    subst hx
    exact ⟨m, rfl, hm⟩
  refine ⟨⟨by decide, hT "p".data (by decide), by decide,
    hT "m".data (by decide), by decide, hT "q".data (by decide)⟩, ?_⟩
  exact (c4_replacement "new".data ["p\n".data] ["m\n".data] ["q\n".data]
    (by decide) (hT "p".data (by decide)) (by decide) (hT "m".data (by decide))
    (by decide) (hT "q".data (by decide))).2

/-- C5: when the scan completes without encountering a begin-marker
line, the output is the original content followed by the begin marker,
the replacement plus a newline, and the end marker; on a nonexistent
path (read as empty content) the new file is exactly begin marker,
replacement, end marker. -/
theorem c5_append_on_absence (c u : List Char)
    (h : ∀ l ∈ splitLines c, isBLine l = false) :
    update_file c u = c ++ FILE_MARKER_BEGIN ++ (u ++ ['\n']) ++ FILE_MARKER_END
    ∧ update_file [] u
      = FILE_MARKER_BEGIN ++ (u ++ ['\n']) ++ FILE_MARKER_END := by
  refine ⟨update_file_no_marker c u h, ?_⟩
  have h0 := update_file_no_marker [] u (by simp [splitLines, splitLinesAux])
  simpa using h0

theorem c5_append_on_absence_witness :
    (∀ l ∈ splitLines "a\nb\n".data, isBLine l = false)
    ∧ update_file "a\nb\n".data "new".data
        = "a\nb\n".data ++ FILE_MARKER_BEGIN ++ ("new".data ++ ['\n'])
          ++ FILE_MARKER_END
    ∧ update_file [] "new".data
        = FILE_MARKER_BEGIN ++ ("new".data ++ ['\n']) ++ FILE_MARKER_END :=
  ⟨by decide, c5_append_on_absence "a\nb\n".data "new".data (by decide)⟩

/-- C6 (amended): when the input contains a begin-marker line `b` with
matching end-marker line `e` (marker-free lines elsewhere), the
canonical begin-marker constant is written where `b` was encountered
(byte-identical to `b` only when `b` is exactly the constant), the
replacement text followed by a line break comes immediately after it,
the original lines up to the end marker are suppressed, and the
end-marker line itself is copied — final layout: begin-marker constant,
replacement text, original end-marker line. -/
theorem c6_begin_marker_step (c u : List Char)
    (pre mid post : List (List Char)) (b e : List Char)
    (hsp : splitLines c = pre ++ b :: (mid ++ e :: post))
    (hpre : ∀ x ∈ pre, isBLine x = false)
    (hmid : ∀ x ∈ mid, isBLine x = false ∧ isELine x = false)
    (hpost : ∀ x ∈ post, isBLine x = false)
    (hb : isBLine b = true) (heB : isBLine e = false) (heE : isELine e = true) :
    update_file c u
      = pre.flatten ++ FILE_MARKER_BEGIN ++ (u ++ ['\n']) ++ e ++ post.flatten :=
  update_file_struct c u pre mid post b e hsp hpre hmid hpost hb heB heE

/-- C6 counterexample: a begin-marker line carrying an extra leading
character is recognized (substring containment) but is not copied to
the output — the canonical constant is written instead, so the claim
that the encountered begin-marker line is copied fails. -/
theorem c6_begin_line_not_copied :
    hasSub FILE_MARKER_BEGIN ('x' :: FILE_MARKER_BEGIN) = true
    ∧ ('x' :: FILE_MARKER_BEGIN)
        ∈ splitLines (('x' :: FILE_MARKER_BEGIN) ++ FILE_MARKER_END)
    ∧ isELine FILE_MARKER_END = true
    ∧ ('x' :: FILE_MARKER_BEGIN)
        ∉ splitLines (update_file (('x' :: FILE_MARKER_BEGIN)
            ++ FILE_MARKER_END) "new".data) := by
  refine ⟨by decide, by decide, by decide, by decide⟩

theorem c6_begin_marker_step_witness :
    splitLines (('x' :: FILE_MARKER_BEGIN) ++ "m\n".data ++ FILE_MARKER_END)
      = [] ++ ('x' :: FILE_MARKER_BEGIN) :: (["m\n".data]
          ++ FILE_MARKER_END :: [])
    ∧ isBLine ('x' :: FILE_MARKER_BEGIN) = true
    ∧ update_file (('x' :: FILE_MARKER_BEGIN) ++ "m\n".data
          ++ FILE_MARKER_END) "new".data
      = ([] : List (List Char)).flatten ++ FILE_MARKER_BEGIN
        ++ ("new".data ++ ['\n']) ++ FILE_MARKER_END
        ++ ([] : List (List Char)).flatten := by
  refine ⟨by decide, by decide, ?_⟩
  exact c6_begin_marker_step _ "new".data [] ["m\n".data] []
    ('x' :: FILE_MARKER_BEGIN) FILE_MARKER_END (by decide) (by simp)
    (by decide) (by simp) (by decide) isBLine_ME isELine_ME

/-- C10: marker lines are recognized by substring containment of the
full marker constant including its trailing newline: no newline-free
line (in particular a marker lacking its trailing newline as the final
line of a file) is recognized as a marker, so such a file gets a fresh
section appended; while a line containing the marker text with
arbitrary surrounding characters is treated as a marker line. -/
theorem c10_marker_containment (u l : List Char) (hnl : '\n' ∉ l) :
    isBLine l = false ∧ isELine l = false
    ∧ update_file ("a\n".data
          ++ "### GENERATED SECTION - DO NOT MODIFY - BEGIN ###".data) u
      = ("a\n".data ++ "### GENERATED SECTION - DO NOT MODIFY - BEGIN ###".data)
        ++ FILE_MARKER_BEGIN ++ (u ++ ['\n']) ++ FILE_MARKER_END
    ∧ update_file (('x' :: FILE_MARKER_BEGIN) ++ "q\n".data
          ++ ('z' :: FILE_MARKER_END)) u
      = FILE_MARKER_BEGIN ++ (u ++ ['\n']) ++ ('z' :: FILE_MARKER_END) := by
  refine ⟨?_, ?_, ?_, ?_⟩
  · cases hq : isBLine l
    · rfl
    · exact absurd (mem_of_hasSub hq (by decide)) hnl
  · cases hq : isELine l
    · rfl
    · exact absurd (mem_of_hasSub hq (by decide)) hnl
  · exact update_file_no_marker _ u (by decide)
  · have h := update_file_struct (('x' :: FILE_MARKER_BEGIN) ++ "q\n".data
        ++ ('z' :: FILE_MARKER_END)) u
      [] ["q\n".data] [] ('x' :: FILE_MARKER_BEGIN) ('z' :: FILE_MARKER_END)
      (by decide) (by simp) (by decide) (by simp) (by decide) (by decide)
      (by decide)
    simpa using h

theorem c10_marker_containment_witness :
    '\n' ∉ ("abc".data : List Char)
    ∧ (isBLine "abc".data = false ∧ isELine "abc".data = false
      ∧ update_file ("a\n".data
            ++ "### GENERATED SECTION - DO NOT MODIFY - BEGIN ###".data) "new".data
        = ("a\n".data ++ "### GENERATED SECTION - DO NOT MODIFY - BEGIN ###".data)
          ++ FILE_MARKER_BEGIN ++ ("new".data ++ ['\n']) ++ FILE_MARKER_END
      ∧ update_file (('x' :: FILE_MARKER_BEGIN) ++ "q\n".data
            ++ ('z' :: FILE_MARKER_END)) "new".data
        = FILE_MARKER_BEGIN ++ ("new".data ++ ['\n'])
          ++ ('z' :: FILE_MARKER_END)) :=
  ⟨by decide, c10_marker_containment "new".data "abc".data (by decide)⟩
